import Mathlib

/-!
# Verification of the `malloc_rs` block allocator and segmented queue

This file gives a shallow embedding of the core of the `malloc_rs`
repository (a from-scratch `brk`-based memory allocator plus a segmented
FIFO queue built on it) and proves or refutes the frozen claims about it.

Conventions used throughout:
* `usize` values are modelled as `Nat` with an explicit wrap-around
  modulus `U = 2 ^ 64` inserted exactly where the Rust arithmetic can
  overflow (`wadd`, `wsub`).
* Raw pointers are modelled as `Nat` addresses, with `0` playing the
  role of the null pointer, exactly as in the source
  (`Block(0 as *mut Header)`).
* The heap of block headers is a total function `Nat → Header`; reading
  an address the program never initialised returns whatever the function
  holds there, which faithfully models reading uninitialised memory.
-/

/-- `2 ^ 64`, the number of `usize` values on the x86-64 target. -/
def U : Nat := 2 ^ 64

/-- Wrapping `usize` addition, as in release-mode Rust. -/
def wadd (a b : Nat) : Nat := (a + b) % U

/-- Wrapping `usize` subtraction, as in release-mode Rust
(inputs are assumed `< U`, which all modelled values are). -/
def wsub (a b : Nat) : Nat := (a + U - b) % U

/-- `fn align(size: usize) -> usize { (size + (size_of::<usize>() - 1)) &
!(size_of::<usize>() - 1) }` from `src/malloc/mod.rs`; on x86-64 the mask
`!(W-1)` is `2^64 - 8`. -/
def align (size : Nat) : Nat := (wadd size 7) &&& (U - 8)

/-- The bitwise accessors of `Header` in `src/malloc/types.rs` operate on
the packed word `internal`.  `get_size`: `internal & !(W - 1)`. -/
def hGetSize (internal : Nat) : Nat := internal &&& (U - 8)

/-- `get_free_bit`: `internal & 1`. -/
def hGetFreeBit (internal : Nat) : Nat := internal &&& 1

/-- `set_size`: `internal = size | get_free_bit()`. -/
def hSetSize (internal size : Nat) : Nat := size ||| hGetFreeBit internal

/-- `set_free_bit`: `internal = get_size() | free_bit`. -/
def hSetFreeBit (internal freeBit : Nat) : Nat := hGetSize internal ||| freeBit

/-! ## Bitwise toolkit -/

theorem and_lor_distrib (a b c : Nat) :
    (a ||| b) &&& c = (a &&& c) ||| (b &&& c) := by
  apply Nat.eq_of_testBit_eq
  intro i
  simp only [Nat.testBit_and, Nat.testBit_or]
  cases a.testBit i <;> cases b.testBit i <;> cases c.testBit i <;> rfl

theorem mask_eq_shift : U - 8 = (2 ^ 61 - 1) <<< 3 := by
  rw [Nat.shiftLeft_eq]
  decide

theorem and_mask_eq_div_mul {x : Nat} (hx : x < U) :
    x &&& (U - 8) = x / 8 * 8 := by
  have h8 : x / 8 * 8 = (x >>> 3) <<< 3 := by
    rw [Nat.shiftLeft_eq, Nat.shiftRight_eq_div_pow]
  apply Nat.eq_of_testBit_eq
  intro i
  rw [mask_eq_shift, h8, Nat.testBit_and, Nat.testBit_shiftLeft,
    Nat.testBit_shiftLeft, Nat.testBit_shiftRight, Nat.testBit_two_pow_sub_one]
  by_cases h3 : 3 ≤ i
  · have h3i : 3 + (i - 3) = i := by omega
    by_cases h64 : i < 64
    · have h61 : i - 3 < 61 := by omega
      simp [h3, h3i, h61, ge_iff_le]
    · have hb : x.testBit i = false := by
        apply Nat.testBit_lt_two_pow
        calc x < U := hx
        _ = 2 ^ 64 := rfl
        _ ≤ 2 ^ i := Nat.pow_le_pow_right (by omega) (by omega)
      have h363 : ¬ (i - 3 < 61) := by omega
      simp [hb, h363, h3, h3i, ge_iff_le]
  · simp [h3, ge_iff_le]

theorem and_mask_self {x : Nat} (hx : x < U) (ha : x % 8 = 0) :
    x &&& (U - 8) = x := by
  rw [and_mask_eq_div_mul hx, Nat.div_mul_cancel (Nat.dvd_of_mod_eq_zero ha)]

theorem and_mask_mod_eight (x : Nat) : (x &&& (U - 8)) % 8 = 0 := by
  have hU : 8 ≤ U := by decide
  have hle : x &&& (U - 8) ≤ U - 8 := Nat.and_le_right
  have hlt : x &&& (U - 8) < U := by omega
  have hid : (x &&& (U - 8)) &&& (U - 8) = x &&& (U - 8) := by
    apply Nat.eq_of_testBit_eq
    intro i
    simp only [Nat.testBit_and]
    cases x.testBit i <;> cases (U - 8).testBit i <;> rfl
  calc (x &&& (U - 8)) % 8 = ((x &&& (U - 8)) &&& (U - 8)) % 8 := by rw [hid]
  _ = ((x &&& (U - 8)) / 8 * 8) % 8 := by rw [and_mask_eq_div_mul hlt]
  _ = 0 := Nat.mul_mod_left _ _

theorem and_one_small {f : Nat} (hf : f < 2) : f &&& 1 = f := by
  interval_cases f <;> decide

theorem and_mask_small {f : Nat} (hf : f < 2) : f &&& (U - 8) = 0 := by
  interval_cases f <;> decide

theorem and_one_of_aligned {s : Nat} (hs : s % 8 = 0) : s &&& 1 = 0 := by
  rw [Nat.and_one_is_mod]
  omega

/-! ## Claim C7 — header packing round trip -/

/-- C7. Header packing round-trip: for every word-aligned size `s < 2^64`
and free bit `f ∈ {0,1}`: starting from a header packing `(s0, f)`,
`set_size(s)` then `get_size` yields `s` and preserves the free bit `f`;
starting from a header packing `(s, f0)`, `set_free_bit(f)` then
`get_free_bit` yields `f` and preserves the size `s`. -/
theorem C7_header_roundtrip (s s0 f f0 : Nat)
    (hs : s % 8 = 0) (hs0 : s0 % 8 = 0) (hsU : s < U) (hs0U : s0 < U)
    (hf : f < 2) (hf0 : f0 < 2) :
    hGetSize (hSetSize (s0 ||| f) s) = s ∧
    hGetFreeBit (hSetSize (s0 ||| f) s) = f ∧
    hGetFreeBit (hSetFreeBit (s ||| f0) f) = f ∧
    hGetSize (hSetFreeBit (s ||| f0) f) = s := by
  have hbit : ∀ g : Nat, g < 2 → (s ||| g) &&& 1 = g := by
    intro g hg
    rw [and_lor_distrib, and_one_of_aligned hs, and_one_small hg,
      Nat.zero_or]
  have hsz : ∀ g : Nat, g < 2 → (s ||| g) &&& (U - 8) = s := by
    intro g hg
    rw [and_lor_distrib, and_mask_self hsU hs, and_mask_small hg,
      Nat.or_zero]
  have hbit0 : (s0 ||| f) &&& 1 = f := by
    rw [and_lor_distrib, and_one_of_aligned hs0, and_one_small hf,
      Nat.zero_or]
  refine ⟨?_, ?_, ?_, ?_⟩ <;>
    simp only [hSetSize, hSetFreeBit, hGetSize, hGetFreeBit]
  · rw [hbit0, hsz f hf]
  · rw [hbit0, hbit f hf]
  · rw [hsz f0 hf0, hbit f hf]
  · rw [hsz f0 hf0, hsz f hf]

/-- Witness for C7 at `s = 16`, `s0 = 8`, `f = 1`, `f0 = 0`. -/
theorem C7_header_roundtrip_witness :
    (16 % 8 = 0 ∧ 8 % 8 = 0 ∧ 16 < U ∧ 8 < U ∧ 1 < 2 ∧ 0 < 2) ∧
    (hGetSize (hSetSize (8 ||| 1) 16) = 16 ∧
      hGetFreeBit (hSetSize (8 ||| 1) 16) = 1 ∧
      hGetFreeBit (hSetFreeBit (16 ||| 0) 1) = 1 ∧
      hGetSize (hSetFreeBit (16 ||| 0) 1) = 16) :=
  ⟨by refine ⟨by decide, by decide, ?_, ?_, by decide, by decide⟩ <;> decide,
    C7_header_roundtrip 16 8 1 0 (by decide) (by decide) (by decide)
      (by decide) (by decide) (by decide)⟩

/-! ## Claim C8 — alignment law -/

/-- C8 (amended): for every `n` with `n + 7 < 2^64` (no `usize`
overflow in `size + (W-1)`), `align n = ⌈n / 8⌉ * 8 = ((n + 7) / 8) * 8`;
the concrete values listed in the claim all hold. -/
theorem C8_align_law (n : Nat) (h : n + 7 < U) :
    align n = ((n + 7) / 8) * 8 ∧
    align 0 = 0 ∧ align 1 = 8 ∧ align 7 = 8 ∧ align 8 = 8 ∧
    align 9 = 16 ∧ align 15 = 16 ∧ align 16 = 16 ∧ align 17 = 24 := by
  refine ⟨?_, by decide, by decide, by decide, by decide, by decide,
    by decide, by decide, by decide⟩
  rw [align, wadd, Nat.mod_eq_of_lt h, and_mask_eq_div_mul h]

/-- Counterexample to C8 as stated: at `n = 2^64 - 1` the wrapping
`usize` addition inside `align` makes `align n = 0`, while
`⌈n / 8⌉ * 8 = 2^64`. -/
theorem C8_align_cex :
    align (2 ^ 64 - 1) = 0 ∧ ((2 ^ 64 - 1) + 7) / 8 * 8 = 2 ^ 64 ∧
    align (2 ^ 64 - 1) ≠ ((2 ^ 64 - 1) + 7) / 8 * 8 := by
  refine ⟨by decide, by decide, by decide⟩

/-- Witness for C8 at `n = 9`. -/
theorem C8_align_law_witness :
    9 + 7 < U ∧ align 9 = ((9 + 7) / 8) * 8 :=
  ⟨by decide, (C8_align_law 9 (by decide)).1⟩

/-! ## The block heap model

`Header` is the in-memory header record of `src/malloc/types.rs`:
a packed `internal` word (size + free bit), and the `prev`/`next`
block addresses (`0` = null).  `size_of::<Header>() = 24` on x86-64,
which is `Block::get_total_padding()`. -/

structure Header where
  internal : Nat
  prev : Nat
  next : Nat
deriving DecidableEq

/-- Memory holding a block header at every address. -/
def Heap : Type := Nat → Header

/-- Write the header at address `a`. -/
def hupd (h : Heap) (a : Nat) (v : Header) : Heap :=
  fun x => if x = a then v else h x

/-- `Block::get_data_size` = `header().get_size()`. -/
def getSize (h : Heap) (a : Nat) : Nat := hGetSize (h a).internal

/-- `Block::get_total_size` = `get_data_size() + get_total_padding()`
(wrapping `usize` addition). -/
def getTotal (h : Heap) (a : Nat) : Nat := wadd (getSize h a) 24

/-- `Block::is_free` = `header().get_free_bit() == 1`. -/
def isFreeB (h : Heap) (a : Nat) : Bool := hGetFreeBit (h a).internal == 1

/-- `Header::set_size` performed on the header at address `a`. -/
def setSize (h : Heap) (a : Nat) (s : Nat) : Heap :=
  hupd h a { h a with internal := hSetSize (h a).internal s }

/-- `Header::set_free_bit` performed on the header at address `a`. -/
def setFreeBit (h : Heap) (a : Nat) (f : Nat) : Heap :=
  hupd h a { h a with internal := hSetFreeBit (h a).internal f }

/-- Write the `next` field of the header at address `a`. -/
def setNext (h : Heap) (a : Nat) (b : Nat) : Heap :=
  hupd h a { h a with next := b }

/-- Write the `prev` field of the header at address `a`. -/
def setPrev (h : Heap) (a : Nat) (b : Nat) : Heap :=
  hupd h a { h a with prev := b }

/-- `Block::split(data_size)` from `src/malloc/types.rs`, acting on the
block at address `b`.  Mirrors the source line by line: the no-split
branch only clears the free bit; the split branch computes the carved
remainder's header from `next_by_total_size` and the wrapping size
arithmetic, writes it, and then shrinks and occupies `b`.  Note that the
source never updates the `prev` field of the old next block. -/
def splitFn (h : Heap) (b : Nat) (dataSize : Nat) : Heap :=
  let oldTotal := getTotal h b
  let newTotal := wadd dataSize 24
  if oldTotal = newTotal ∨ wsub oldTotal newTotal ≤ 24 then
    setFreeBit h b 0
  else
    let nextBlock := if (h b).next ≠ 0 then wadd b oldTotal else 0
    let remaining := wadd b newTotal
    let remainingData := wsub (wsub oldTotal newTotal) 24
    let h1 := setSize h remaining remainingData
    let h2 := setFreeBit h1 remaining 1
    let h3 := setNext h2 remaining nextBlock
    let h4 := setPrev h3 remaining b
    let h5 := setSize h4 b dataSize
    let h6 := setFreeBit h5 b 0
    setNext h6 b remaining

/-- `Block::coalesce` from `src/malloc/types.rs`, acting on the block at
address `b`.  The forward branch reproduces the source's aliasing
behaviour exactly: the Rust binding `next` is a reference to the `next`
field *inside* `b`'s own header, so after `self.header().next =
next.next()` is executed, `next.next()` re-reads through the updated
field; the final `nn.header().prev = next.0` therefore writes the `prev`
field of the wrong block (and of the header at address 0 when the
absorbed block's successor was the last block). -/
def coalesceFn (h : Heap) (b : Nat) : Heap :=
  let h1 :=
    if (h b).next ≠ 0 ∧ isFreeB h ((h b).next) then
      let nextA := (h b).next
      let ha := setSize h b (wadd (getSize h b) (getTotal h nextA))
      if (ha nextA).next ≠ 0 then
        let hb2 := setNext ha b ((ha nextA).next)
        let nn := (hb2 ((hb2 b).next)).next
        setPrev hb2 nn ((hb2 b).next)
      else
        setNext ha b 0
    else h
  if (h1 b).prev ≠ 0 ∧ isFreeB h1 ((h1 b).prev) then
    let prevA := (h1 b).prev
    let hc := setSize h1 prevA (wadd (getSize h1 prevA) (getTotal h1 b))
    if (hc b).next ≠ 0 then
      let hd := setNext hc prevA ((hc b).next)
      setPrev hd ((hd b).next) ((hd b).prev)
    else
      setNext hc prevA 0
  else h1

/-! ## Free-spot search

`search_first_fit` / `search_best_fit` from `src/malloc/mod.rs` walk the
`next` chain starting at `ROOT`.  The Rust `while` loop is modelled with
an explicit fuel argument (any fuel at least the chain length gives the
loop's behaviour; the chain itself is finite in every well-formed heap). -/

def searchFirstFit (h : Heap) (size : Nat) : Nat → Nat → Nat × Bool
  | 0, current => (current, false)
  | fuel + 1, current =>
    if (h current).next = 0 then (current, false)
    else
      let c := (h current).next
      if isFreeB h c && decide (size ≤ getTotal h c) then (c, true)
      else searchFirstFit h size fuel c

def searchBestFit (h : Heap) (size : Nat) :
    Nat → Nat → Bool → Nat → Nat → Nat × Bool
  | 0, current, found, mn, mb =>
    if found then (mb, true) else (current, false)
  | fuel + 1, current, found, mn, mb =>
    if (h current).next = 0 then
      if found then (mb, true) else (current, false)
    else
      let c := (h current).next
      let ts := getTotal h c
      if isFreeB h c && decide (size ≤ ts) && decide (ts < mn) then
        searchBestFit h size fuel c true ts c
      else
        searchBestFit h size fuel c found mn mb

/-- The two strategies of `SearchStrategy` in `src/malloc/mod.rs`. -/
inductive Strategy where
  | firstFit : Strategy
  | bestFit : Strategy

/-- `search_free_spot_or_last`: dispatch on the strategy (chosen once
from the command line at start-up).  Initial accumulator values are the
source's `found = false`, `min = usize::MAX`, `min_block = current`. -/
def searchSpot (strat : Strategy) (h : Heap) (root : Nat) (fuel : Nat)
    (size : Nat) : Nat × Bool :=
  match strat with
  | .firstFit => searchFirstFit h size fuel root
  | .bestFit => searchBestFit h size fuel root false (U - 1) root

/-- Executable well-formedness of a block chain: `chainOfB h a bs`
states that following `next` pointers from `a` visits exactly the
(null-free) addresses `bs` and then stops at a null `next`. -/
def chainOfB (h : Heap) (a : Nat) : List Nat → Bool
  | [] => (h a).next == 0
  | b :: bs => (h a).next == b && b != 0 && chainOfB h b bs

/-! ## OS-break adapter and allocator engine

`MState` bundles the allocator's process-wide state (`ROOT`,
`CURRENT_BRK`, the heap memory) with a model of the kernel side of the
`brk` system call: the kernel break `kernelBrk`, the bottom of the data
segment `minBrk`, and the largest break the kernel is willing to grant,
`limit`.  `syscall(BRK, a)` moves the kernel break to `a` and returns it
when `minBrk ≤ a ≤ limit`, and otherwise leaves the break unchanged and
returns it — the POSIX behaviour the spec's "OS contract" section
describes. -/

structure MState where
  heap : Heap
  root : Nat
  curBrk : Nat
  kernelBrk : Nat
  minBrk : Nat
  limit : Nat

/-- The kernel side of `syscall1(BRK, addr)`. -/
def kernelCall (s : MState) (addr : Nat) : Nat × MState :=
  if s.minBrk ≤ addr ∧ addr ≤ s.limit then
    (addr, { s with kernelBrk := addr })
  else
    (s.kernelBrk, s)

/-- `unsafe fn brk(end_data_segment)` from `src/malloc/mod.rs`: issue the
system call, cache the result in `CURRENT_BRK`, and return `-1` when the
kernel's new break is below the requested address, else the new break. -/
def brkM (s : MState) (addr : Nat) : Int × MState :=
  let (knew, s1) := kernelCall s addr
  let s2 := { s1 with curBrk := knew }
  (if knew < addr then (-1 : Int) else (knew : Int), s2)

/-- `unsafe fn sbrk(increment)`: initialise the cached break on first
use, then request `CURRENT_BRK + increment` and return `brk`'s result. -/
def sbrkM (s : MState) (increment : Nat) : Int × MState :=
  let s0 := if s.curBrk = 0 then (brkM s 0).2 else s
  brkM s0 (wadd s0.curBrk increment)

/-- Reinterpretation of the `*mut isize` return value as a `usize`
(`sbrk(0) as *mut usize` in `malloc`), i.e. two's-complement cast. -/
def usizeOfInt (i : Int) : Nat := (i % (U : Int)).toNat

/-- `fn init_malloc()`: query the break, install the root block's
zero-size header there, and grow the break past that header. -/
def initMalloc (s : MState) : MState :=
  let (r0, s1) := brkM s 0
  let root := usizeOfInt r0
  let s2 := { s1 with root := root }
  let s3 := (sbrkM s2 24).2
  { s3 with heap := hupd s3.heap root ⟨0, 0, 0⟩ }

/-- The ways the Rust allocator can panic: a failed `assert!` or an
`Option::unwrap` on `None`. -/
inductive Panic where
  | assertFailed : Panic
  | unwrapNone : Panic
deriving DecidableEq

/-- `pub fn malloc(size)` from `src/malloc/mod.rs`.  `fuel` bounds the
search loop (any value at least the block-chain length is faithful).
Returns the data pointer and new state, or the panic the Rust code would
hit (`assert!(size > 0)`, or `.data().unwrap()` on a zero-size block). -/
def mallocM (strat : Strategy) (fuel : Nat) (s : MState) (size : Nat) :
    Except Panic (Nat × MState) :=
  if size = 0 then .error .assertFailed
  else
    let s := if s.root = 0 then initMalloc s else s
    let aligned := align size
    let total := wadd aligned 24
    let (blk, found) := searchSpot strat s.heap s.root fuel total
    if found then
      let h2 := splitFn s.heap blk aligned
      if getSize h2 blk = 0 then .error .unwrapNone
      else .ok (wadd blk 24, { s with heap := h2 })
    else
      let (c, s1) := sbrkM s 0
      let current := usizeOfInt c
      let s2 := (sbrkM s1 total).2
      let h1 := hupd s2.heap current ⟨aligned, 0, 0⟩
      let h2 := setPrev h1 current blk
      let h3 := setNext h2 blk current
      if getSize h3 current = 0 then .error .unwrapNone
      else .ok (wadd current 24, { s2 with heap := h3 })

/-- `pub fn free(ptr)` from `src/malloc/mod.rs`:
`assert!(ptr != 0)`, then mark the block free and coalesce. -/
def freeM (s : MState) (ptr : Nat) : Except Panic MState :=
  if ptr = 0 then .error .assertFailed
  else
    let b := wsub ptr 24
    let h1 := setFreeBit s.heap b 1
    .ok { s with heap := coalesceFn h1 b }

/-- Data pointer of a (non-panicking) `malloc` result. -/
def ptrOf (e : Except Panic (Nat × MState)) : Option Nat :=
  match e with
  | .ok (p, _) => some p
  | .error _ => none

/-- The panic of a failed `malloc` result, if any. -/
def panicOf (e : Except Panic (Nat × MState)) : Option Panic :=
  match e with
  | .ok _ => none
  | .error p => some p

/-- Post-state of a `malloc` result (default `d` on panic). -/
def stateOf (d : MState) (e : Except Panic (Nat × MState)) : MState :=
  match e with
  | .ok (_, st) => st
  | .error _ => d

/-- Post-state of a `free` result (default `d` on panic). -/
def stateOfFree (d : MState) (e : Except Panic MState) : MState :=
  match e with
  | .ok st => st
  | .error _ => d

/-! ## Claim C4 — sbrk return value -/

/-- A legal allocator state used to exercise `sbrk`: cached break 1000,
kernel break 1000, data segment floor 500, kernel limit 2000. -/
def c4State : MState :=
  { heap := fun _ => ⟨0, 0, 0⟩, root := 1000, curBrk := 1000,
    kernelBrk := 1000, minBrk := 500, limit := 2000 }

/-- Counterexample to C4 as stated: with the cached break at 1000 and the
kernel granting the request, `sbrk(8)` returns 1008 — the break *after*
growing — not the old value 1000 the claim (and POSIX `sbrk`) promise. -/
theorem C4_sbrk_cex :
    c4State.curBrk = 1000 ∧ (sbrkM c4State 8).1 = 1008 ∧
    ((1008 : Int) ≠ (1000 : Int)) := by
  refine ⟨rfl, by decide, by decide⟩

/-- C4 (amended): for every state with a non-zero cached break and every
`delta` the kernel grants (`minBrk ≤ curBrk + delta ≤ limit`, no
overflow), `sbrk(delta)` returns the *new* break `curBrk + delta` and
leaves the cached break equal to it; in particular for `delta = 0` it
returns the current break unchanged. -/
theorem C4_sbrk_returns_new_brk (s : MState) (delta : Nat)
    (h0 : 0 < s.curBrk) (h1 : s.minBrk ≤ s.curBrk + delta)
    (h2 : s.curBrk + delta ≤ s.limit) (h3 : s.curBrk + delta < U) :
    (sbrkM s delta).1 = ((s.curBrk + delta : Nat) : Int) ∧
    (sbrkM s delta).2.curBrk = s.curBrk + delta := by
  have hc : ¬ s.curBrk = 0 := by omega
  have hw : wadd s.curBrk delta = s.curBrk + delta := by
    rw [wadd, Nat.mod_eq_of_lt h3]
  unfold sbrkM brkM kernelCall
  simp only [hc, if_false, ite_false, hw, if_pos (And.intro h1 h2)]
  constructor
  · rw [if_neg (by omega)]
  · trivial

/-- Witness for the amended C4 at `c4State`, `delta = 8`. -/
theorem C4_sbrk_returns_new_brk_witness :
    (0 < c4State.curBrk ∧ c4State.minBrk ≤ c4State.curBrk + 8 ∧
      c4State.curBrk + 8 ≤ c4State.limit ∧ c4State.curBrk + 8 < U) ∧
    ((sbrkM c4State 8).1 = ((c4State.curBrk + 8 : Nat) : Int) ∧
      (sbrkM c4State 8).2.curBrk = c4State.curBrk + 8) :=
  ⟨⟨by decide, by decide, by decide, by decide⟩,
    C4_sbrk_returns_new_brk c4State 8 (by decide) (by decide) (by decide)
      (by decide)⟩

/-! ## Claim C9 — invalid arguments panic instead of returning -/

/-- An initialised allocator state for exercising the entry points. -/
def c9State : MState :=
  { heap := fun _ => ⟨0, 0, 0⟩, root := 1000, curBrk := 1024,
    kernelBrk := 1024, minBrk := 1000, limit := 100000 }

/-- Counterexample to C9 as stated: `malloc(0)` and `free(null)` do not
return a tagged value — both hit `assert!` and panic (which unwinds). -/
theorem C9_assert_cex :
    ptrOf (mallocM .firstFit 5 c9State 0) = none ∧
    panicOf (mallocM .firstFit 5 c9State 0) = some .assertFailed ∧
    freeM c9State 0 = .error .assertFailed :=
  ⟨rfl, rfl, rfl⟩

/-- C9 (amended): `malloc` with size 0 and `free` with a null pointer
fail the `assert!` at the top of each entry point and panic (unwind);
they never return a tagged value for these invalid arguments. -/
theorem C9_invalid_args_panic (strat : Strategy) (fuel : Nat) (s t : MState) :
    mallocM strat fuel s 0 = .error .assertFailed ∧
    freeM t 0 = .error .assertFailed :=
  ⟨rfl, rfl⟩

/-! ## Claim C6 — malloc ignores a refused break -/

/-- State whose kernel refuses to grow the break past 1024: the heap
holds only the root block at 1000, the break sits at 1024 and
`limit = 1024`. -/
def c6State : MState :=
  { heap := fun _ => ⟨0, 0, 0⟩, root := 1000, curBrk := 1024,
    kernelBrk := 1024, minBrk := 1000, limit := 1024 }

/-- C6 fails on the code: `malloc(8)` finds no fitting block, requests
`sbrk(32)`, the kernel refuses (the cached break stays at 1024, below
the requested 1056) — and `malloc` nevertheless returns the non-null
pointer 1048 after writing a header beyond the actual break, instead of
the null pointer the claim promises. -/
theorem C6_break_failure_not_null :
    ptrOf (mallocM .firstFit 5 c6State 8) = some 1048 ∧
    (stateOf c6State (mallocM .firstFit 5 c6State 8)).curBrk = 1024 ∧
    some (1048 : Nat) ≠ some (0 : Nat) := by
  refine ⟨by decide, by decide, by decide⟩

/-! ## Claim C2 — split leaves the old next's back link stale -/

/-- Concrete heap for `split`: a free block of data size 96 at 1000
whose `next` is the block at `1000 + 120 = 1120`, which in turn has
`prev = 1000`. -/
def c2Heap : Heap := fun a =>
  if a = 1000 then ⟨97, 0, 1120⟩
  else if a = 1120 then ⟨48, 1000, 0⟩
  else ⟨0, 0, 0⟩

/-- C2 fails on the code: splitting the free block at 1000 down to data
size 8 carves the remainder at 1032 exactly as the claim describes
(size `120 - 32 - 24 = 64`, free, `prev = 1000`, `next = 1120`, and
`b` itself gets size 8, free bit 0, `next = 1032`) — but the old next
block at 1120 keeps `prev = 1000`; the source contains no write that
would make it the remainder 1032. -/
theorem C2_split_stale_backlink :
    (splitFn c2Heap 1000 8 1032).next = 1120 ∧
    isFreeB (splitFn c2Heap 1000 8) 1032 = true ∧
    getSize (splitFn c2Heap 1000 8) 1032 = 64 ∧
    (splitFn c2Heap 1000 8 1032).prev = 1000 ∧
    (splitFn c2Heap 1000 8 1000).next = 1032 ∧
    getSize (splitFn c2Heap 1000 8) 1000 = 8 ∧
    isFreeB (splitFn c2Heap 1000 8) 1000 = false ∧
    (splitFn c2Heap 1000 8 1120).prev = 1000 ∧
    (1000 : Nat) ≠ 1032 := by
  refine ⟨by decide, by decide, by decide, by decide, by decide, by decide,
    by decide, by decide, by decide⟩

/-! ## Claim C1 — double-link consistency is not an invariant -/

/-- A pristine process: nothing initialised, kernel break at 1000,
kernel willing to grow up to 100000. -/
def c1Pristine : MState :=
  { heap := fun _ => ⟨0, 0, 0⟩, root := 0, curBrk := 0,
    kernelBrk := 1000, minBrk := 1000, limit := 100000 }

/-- State after `malloc(48)` (initialises the root, creates block A
at 1024). -/
def c1s1 : MState := stateOf c1Pristine (mallocM .firstFit 10 c1Pristine 48)

/-- State after a second `malloc(48)` (creates block B at 1096). -/
def c1s2 : MState := stateOf c1s1 (mallocM .firstFit 10 c1s1 48)

/-- State after `free` of the first allocation (block A becomes free). -/
def c1s3 : MState := stateOfFree c1s2 (freeM c1s2 1048)

/-- State after `malloc(8)`, which splits block A at 1024 into an
occupied 8-byte block and a free remainder at 1056. -/
def c1s4 : MState := stateOf c1s3 (mallocM .firstFit 10 c1s3 8)

/-- C1 fails on the code: after the reachable call sequence
`malloc(48); malloc(48); free(first); malloc(8)` from the initialised
root, the remainder block at 1056 has `next = 1096` (non-null), yet the
block at 1096 still has `prev = 1024` — the address of the block that
was split — not 1056.  `split` never rewrites its old next's `prev`
(and `coalesce`'s forward relink writes the wrong block's `prev`), so
double-link consistency is not re-established. -/
theorem C1_doublelink_not_invariant :
    (c1s4.heap 1056).next = 1096 ∧
    (c1s4.heap 1096).prev = 1024 ∧
    (1024 : Nat) ≠ 1056 := by
  refine ⟨by decide, by decide, by decide⟩

/-! ## Claim C5 — search characterisation -/

/-- The fitting test used by both searches:
`current.is_free() && current.get_total_size() >= size`. -/
def fitsB (h : Heap) (size b : Nat) : Bool :=
  isFreeB h b && decide (size ≤ getTotal h b)

/-- The "last block" both searches return when nothing fits: the last
element of the chain, or the root itself when the chain is empty. -/
def lastBlk (root : Nat) (bs : List Nat) : Nat :=
  ((root :: bs).getLast?).getD 0

theorem lastBlk_nil (root : Nat) : lastBlk root [] = root := rfl

theorem lastBlk_cons (root b : Nat) (bs : List Nat) :
    lastBlk root (b :: bs) = lastBlk b bs := by
  simp [lastBlk, List.getLast?_cons_cons]

/-- The first-fit loop visits exactly the chain: it returns the first
fitting block of `bs` (flag `true`), else the last block (flag
`false`). -/
theorem ffChain (h : Heap) (size : Nat) :
    ∀ (bs : List Nat) (root fuel : Nat), chainOfB h root bs = true →
      bs.length ≤ fuel →
      searchFirstFit h size fuel root =
        (match bs.find? (fitsB h size) with
          | some b => (b, true)
          | none => (lastBlk root bs, false))
  | [], root, fuel, hch, _ => by
    simp only [chainOfB, beq_iff_eq] at hch
    cases fuel with
    | zero => simp [searchFirstFit, List.find?, lastBlk_nil]
    | succ f => simp [searchFirstFit, hch, List.find?, lastBlk_nil]
  | b :: bs, root, fuel, hch, hf => by
    simp only [chainOfB, Bool.and_eq_true, beq_iff_eq, bne_iff_ne] at hch
    obtain ⟨⟨hnext, hb0⟩, hrest⟩ := hch
    cases fuel with
    | zero => simp at hf
    | succ f =>
      have hlen : bs.length ≤ f := by simpa using hf
      rw [searchFirstFit, if_neg (by rw [hnext]; exact hb0)]
      simp only [hnext]
      by_cases hfit : fitsB h size b = true
      · have : (isFreeB h b && decide (size ≤ getTotal h b)) = true := hfit
        rw [if_pos this, List.find?_cons_of_pos _ hfit]
      · have hfalse : (isFreeB h b && decide (size ≤ getTotal h b)) = false := by
          rwa [Bool.not_eq_true] at hfit
        rw [if_neg (by rw [hfalse]; exact Bool.false_ne_true),
          List.find?_cons_of_neg _ (by rwa [Bool.not_eq_true]),
          ffChain h size bs b f hrest hlen, lastBlk_cons]

/-- Pure fold describing the best-fit accumulator loop. -/
def bfFold (h : Heap) (size : Nat) :
    List Nat → Bool → Nat → Nat → Bool × Nat × Nat
  | [], found, mn, mb => (found, mn, mb)
  | c :: rest, found, mn, mb =>
    if fitsB h size c && decide (getTotal h c < mn) then
      bfFold h size rest true (getTotal h c) c
    else
      bfFold h size rest found mn mb

/-- The best-fit loop visits exactly the chain and is the fold. -/
theorem bfChain (h : Heap) (size : Nat) :
    ∀ (bs : List Nat) (root fuel : Nat) (found : Bool) (mn mb : Nat),
      chainOfB h root bs = true → bs.length ≤ fuel →
      searchBestFit h size fuel root found mn mb =
        (if (bfFold h size bs found mn mb).1 then
          ((bfFold h size bs found mn mb).2.2, true)
        else (lastBlk root bs, false))
  | [], root, fuel, found, mn, mb, hch, _ => by
    simp only [chainOfB, beq_iff_eq] at hch
    cases fuel with
    | zero => cases found <;> simp [searchBestFit, bfFold, lastBlk_nil]
    | succ f => cases found <;> simp [searchBestFit, hch, bfFold, lastBlk_nil]
  | b :: bs, root, fuel, found, mn, mb, hch, hf => by
    simp only [chainOfB, Bool.and_eq_true, beq_iff_eq, bne_iff_ne] at hch
    obtain ⟨⟨hnext, hb0⟩, hrest⟩ := hch
    cases fuel with
    | zero => simp at hf
    | succ f =>
      have hlen : bs.length ≤ f := by simpa using hf
      rw [searchBestFit, if_neg (by rw [hnext]; exact hb0)]
      simp only [hnext]
      rw [bfFold, lastBlk_cons]
      by_cases hc : (fitsB h size b && decide (getTotal h b < mn)) = true
      · have : (isFreeB h b && decide (size ≤ getTotal h b) &&
            decide (getTotal h b < mn)) = true := hc
        rw [if_pos this, if_pos hc, bfChain h size bs b f true _ _ hrest hlen]
      · have hcf : (fitsB h size b && decide (getTotal h b < mn)) = false := by
          rwa [Bool.not_eq_true] at hc
        have : (isFreeB h b && decide (size ≤ getTotal h b) &&
            decide (getTotal h b < mn)) = false := hcf
        rw [if_neg (by rw [this]; exact Bool.false_ne_true), if_neg hc,
          bfChain h size bs b f found _ _ hrest hlen]

/-- The fold is the identity when nothing in the list both fits and
improves on the current minimum. -/
theorem bfFold_skip (h : Heap) (size : Nat) :
    ∀ (l : List Nat) (found : Bool) (mn mb : Nat),
      (∀ c ∈ l, ¬(fitsB h size c = true ∧ getTotal h c < mn)) →
      bfFold h size l found mn mb = (found, mn, mb)
  | [], found, mn, mb, _ => rfl
  | c :: rest, found, mn, mb, hno => by
    have hc : (fitsB h size c && decide (getTotal h c < mn)) = false := by
      have := hno c (by simp)
      cases hfc : fitsB h size c
      · rfl
      · simp only [hfc, Bool.true_and, decide_eq_false_iff_not]
        intro hlt
        exact this ⟨hfc, hlt⟩
    rw [bfFold, if_neg (by rw [hc]; exact Bool.false_ne_true)]
    exact bfFold_skip h size rest found mn mb
      (fun d hd => hno d (by simp [hd]))

/-- Main best-fit fold characterisation: when some list element fits and
beats the running minimum, the fold returns the first element of minimal
total size among those. -/
theorem bfFold_min (h : Heap) (size : Nat) :
    ∀ (l : List Nat) (mn : Nat),
      (∃ c ∈ l, fitsB h size c = true ∧ getTotal h c < mn) →
      ∀ (found : Bool) (mb : Nat),
      ∃ i, ∃ hi : i < l.length,
        bfFold h size l found mn mb = (true, getTotal h l[i], l[i]) ∧
        fitsB h size l[i] = true ∧ getTotal h l[i] < mn ∧
        (∀ j, ∀ hj : j < l.length, fitsB h size l[j] = true →
          getTotal h l[j] < mn → getTotal h l[i] ≤ getTotal h l[j]) ∧
        (∀ j, ∀ hj : j < l.length, j < i → fitsB h size l[j] = true →
          getTotal h l[j] < mn → getTotal h l[i] < getTotal h l[j])
  | [], mn, hex, found, mb => by simp at hex
  | c :: rest, mn, hex, found, mb => by
    by_cases hc : fitsB h size c = true ∧ getTotal h c < mn
    · have hcond : (fitsB h size c && decide (getTotal h c < mn)) = true := by
        simp [hc.1, hc.2]
      by_cases hbetter :
          ∃ d ∈ rest, fitsB h size d = true ∧ getTotal h d < getTotal h c
      · obtain ⟨i, hi, hres, hfit, hlt, hmin, hstrict⟩ :=
          bfFold_min h size rest (getTotal h c) hbetter true c
        refine ⟨i + 1, by simp only [List.length_cons]; omega,
          ?_, ?_, ?_, ?_, ?_⟩
        · rw [bfFold, if_pos hcond, hres]
          simp
        · simpa using hfit
        · exact lt_trans (by simpa using hlt) hc.2
        · intro j hj hjf hjlt
          match j with
          | 0 =>
            simp only [List.getElem_cons_succ, List.getElem_cons_zero] at *
            exact le_of_lt hlt
          | j' + 1 =>
            have hj2 : j' < rest.length := by
              simp only [List.length_cons] at hj
              omega
            simp only [List.getElem_cons_succ] at *
            rcases Nat.lt_or_ge (getTotal h rest[j']) (getTotal h c) with hl | hg
            · exact hmin j' hj2 hjf hl
            · exact le_trans (le_of_lt hlt) hg
        · intro j hj hji hjf hjlt
          match j with
          | 0 =>
            simp only [List.getElem_cons_succ, List.getElem_cons_zero] at *
            exact hlt
          | j' + 1 =>
            have hj2 : j' < rest.length := by
              simp only [List.length_cons] at hj
              omega
            simp only [List.getElem_cons_succ] at *
            rcases Nat.lt_or_ge (getTotal h rest[j']) (getTotal h c) with hl | hg
            · exact hstrict j' hj2 (by omega) hjf hl
            · exact lt_of_lt_of_le hlt hg
      · push_neg at hbetter
        refine ⟨0, by simp, ?_, ?_, ?_, ?_, ?_⟩
        · rw [bfFold, if_pos hcond]
          simp only [List.getElem_cons_zero]
          refine bfFold_skip h size rest true (getTotal h c) c ?_
          intro d hd hcontr
          exact absurd hcontr.2 (not_lt.mpr (hbetter d hd hcontr.1))
        · simpa using hc.1
        · simpa using hc.2
        · intro j hj hjf hjlt
          match j with
          | 0 => simp
          | j' + 1 =>
            have hj2 : j' < rest.length := by
              simp only [List.length_cons] at hj
              omega
            simp only [List.getElem_cons_succ, List.getElem_cons_zero] at *
            exact hbetter rest[j'] (List.getElem_mem hj2) hjf
        · intro j hj hji
          omega
    · have hcond : (fitsB h size c && decide (getTotal h c < mn)) = false := by
        cases hfc : fitsB h size c
        · rfl
        · simp only [hfc, Bool.true_and, decide_eq_false_iff_not]
          intro hlt
          exact hc ⟨hfc, hlt⟩
      have hex' : ∃ d ∈ rest, fitsB h size d = true ∧ getTotal h d < mn := by
        obtain ⟨d, hd, hdp⟩ := hex
        rcases List.mem_cons.mp hd with rfl | hdr
        · exact absurd hdp hc
        · exact ⟨d, hdr, hdp⟩
      obtain ⟨i, hi, hres, hfit, hlt, hmin, hstrict⟩ :=
        bfFold_min h size rest mn hex' found mb
      refine ⟨i + 1, by simp only [List.length_cons]; omega,
        ?_, ?_, ?_, ?_, ?_⟩
      · rw [bfFold, if_neg (by rw [hcond]; exact Bool.false_ne_true), hres]
        simp
      · simpa using hfit
      · simpa using hlt
      · intro j hj hjf hjlt
        match j with
        | 0 =>
          simp only [List.getElem_cons_succ, List.getElem_cons_zero] at *
          exact absurd ⟨hjf, hjlt⟩ hc
        | j' + 1 =>
          have hj2 : j' < rest.length := by
            simp only [List.length_cons] at hj
            omega
          simp only [List.getElem_cons_succ] at *
          exact hmin j' hj2 hjf hjlt
      · intro j hj hji hjf hjlt
        match j with
        | 0 =>
          simp only [List.getElem_cons_succ, List.getElem_cons_zero] at *
          exact absurd ⟨hjf, hjlt⟩ hc
        | j' + 1 =>
          have hj2 : j' < rest.length := by
            simp only [List.length_cons] at hj
            omega
          simp only [List.getElem_cons_succ] at *
          exact hstrict j' hj2 (by omega) hjf hjlt

/-- Any block with non-overflowing total size has total size strictly
below `usize::MAX` (the best-fit sentinel), because stored sizes are
masked to multiples of 8. -/
theorem total_lt_max {h : Heap} {b : Nat} (hb : getSize h b + 24 < U) :
    getTotal h b < U - 1 := by
  have h8 : getSize h b % 8 = 0 := and_mask_mod_eight _
  have ht : getTotal h b = getSize h b + 24 := by
    rw [getTotal, wadd, Nat.mod_eq_of_lt hb]
  have hU8 : U % 8 = 0 := by decide
  have hU : 8 ≤ U := by decide
  omega

/-- C5.  Over any block chain `bs` hanging off the root (with
non-overflowing block sizes): `FIRST_FIT` returns the first free block of
sufficient total size with flag `true`; when nothing fits, both searches
return the last block of the list with flag `false`; and `BEST_FIT`
returns a fitting free block of minimal total size, ties broken by the
first one encountered. -/
theorem C5_search_characterisation (h : Heap) (root size fuel : Nat)
    (bs : List Nat) (hch : chainOfB h root bs = true)
    (hfuel : bs.length ≤ fuel)
    (hw : ∀ b ∈ bs, getSize h b + 24 < U) :
    (∀ b, bs.find? (fitsB h size) = some b →
      searchFirstFit h size fuel root = (b, true)) ∧
    (bs.find? (fitsB h size) = none →
      searchFirstFit h size fuel root = (lastBlk root bs, false) ∧
      searchBestFit h size fuel root false (U - 1) root =
        (lastBlk root bs, false)) ∧
    (∀ b0 ∈ bs, fitsB h size b0 = true →
      ∃ i, ∃ hi : i < bs.length,
        searchBestFit h size fuel root false (U - 1) root = (bs[i], true) ∧
        fitsB h size bs[i] = true ∧
        (∀ j, ∀ hj : j < bs.length, fitsB h size bs[j] = true →
          getTotal h bs[i] ≤ getTotal h bs[j]) ∧
        (∀ j, ∀ hj : j < bs.length, j < i → fitsB h size bs[j] = true →
          getTotal h bs[i] < getTotal h bs[j])) := by
  refine ⟨?_, ?_, ?_⟩
  · intro b hb
    rw [ffChain h size bs root fuel hch hfuel, hb]
  · intro hnone
    constructor
    · rw [ffChain h size bs root fuel hch hfuel, hnone]
    · rw [bfChain h size bs root fuel false (U - 1) root hch hfuel,
        bfFold_skip h size bs false (U - 1) root ?_]
      · simp
      · intro c hcmem hcontr
        have hnp := List.find?_eq_none.mp hnone c hcmem
        exact hnp hcontr.1
  · intro b0 hb0 hfit
    have hex : ∃ c ∈ bs, fitsB h size c = true ∧ getTotal h c < U - 1 :=
      ⟨b0, hb0, hfit, total_lt_max (hw b0 hb0)⟩
    obtain ⟨i, hi, hres, hfiti, _hlti, hmin, hstrict⟩ :=
      bfFold_min h size bs (U - 1) hex false root
    refine ⟨i, hi, ?_, hfiti, ?_, ?_⟩
    · rw [bfChain h size bs root fuel false (U - 1) root hch hfuel, hres]
      simp
    · intro j hj hjf
      exact hmin j hj hjf (total_lt_max (hw _ (List.getElem_mem hj)))
    · intro j hj hji hjf
      exact hstrict j hj hji hjf (total_lt_max (hw _ (List.getElem_mem hj)))

/-- Concrete heap for the C5 witness: root at 100, a free block of data
size 48 at 200, a free block of data size 16 at 300. -/
def c5Heap : Heap := fun a =>
  if a = 100 then ⟨0, 0, 200⟩
  else if a = 200 then ⟨49, 100, 300⟩
  else if a = 300 then ⟨17, 200, 0⟩
  else ⟨0, 0, 0⟩

/-- Witness for C5 on `c5Heap` with requested total size 40: the chain
is `[200, 300]`, both blocks fit, first-fit finds 200 first, best-fit
prefers the smaller block 300. -/
theorem C5_search_characterisation_witness :
    (chainOfB c5Heap 100 [200, 300] = true ∧
      ([200, 300] : List Nat).length ≤ 5 ∧
      ∀ b ∈ ([200, 300] : List Nat), getSize c5Heap b + 24 < U) ∧
    ((∀ b, ([200, 300] : List Nat).find? (fitsB c5Heap 40) = some b →
        searchFirstFit c5Heap 40 5 100 = (b, true)) ∧
      (([200, 300] : List Nat).find? (fitsB c5Heap 40) = none →
        searchFirstFit c5Heap 40 5 100 = (lastBlk 100 [200, 300], false) ∧
        searchBestFit c5Heap 40 5 100 false (U - 1) 100 =
          (lastBlk 100 [200, 300], false)) ∧
      (∀ b0 ∈ ([200, 300] : List Nat), fitsB c5Heap 40 b0 = true →
        ∃ i, ∃ hi : i < ([200, 300] : List Nat).length,
          searchBestFit c5Heap 40 5 100 false (U - 1) 100 =
            (([200, 300] : List Nat)[i], true) ∧
          fitsB c5Heap 40 (([200, 300] : List Nat)[i]) = true ∧
          (∀ j, ∀ hj : j < ([200, 300] : List Nat).length,
            fitsB c5Heap 40 (([200, 300] : List Nat)[j]) = true →
            getTotal c5Heap (([200, 300] : List Nat)[i]) ≤
              getTotal c5Heap (([200, 300] : List Nat)[j])) ∧
          (∀ j, ∀ hj : j < ([200, 300] : List Nat).length, j < i →
            fitsB c5Heap 40 (([200, 300] : List Nat)[j]) = true →
            getTotal c5Heap (([200, 300] : List Nat)[i]) <
              getTotal c5Heap (([200, 300] : List Nat)[j])))) :=
  ⟨⟨by decide, by decide, by decide⟩,
    C5_search_characterisation c5Heap 100 40 5 [200, 300] (by decide)
      (by decide) (by decide)⟩

/-! ## Claim C10 — malloc's unwrap cannot panic (support lemmas) -/

theorem and_mask_idem (x : Nat) :
    (x &&& (U - 8)) &&& (U - 8) = x &&& (U - 8) := by
  apply Nat.eq_of_testBit_eq
  intro i
  simp only [Nat.testBit_and]
  cases x.testBit i <;> cases (U - 8).testBit i <;> rfl

theorem align_mod8 (n : Nat) : align n % 8 = 0 := and_mask_mod_eight _

theorem align_lt_U (n : Nat) : align n < U := by
  have h1 : align n ≤ U - 8 := Nat.and_le_right
  have h2 : (8 : Nat) ≤ U := by decide
  omega

theorem align_eq_of_lt {n : Nat} (h : n + 7 < U) :
    align n = (n + 7) / 8 * 8 := by
  rw [align, wadd, Nat.mod_eq_of_lt h, and_mask_eq_div_mul h]

theorem align_pos {n : Nat} (h0 : 0 < n) (hU : n + 7 < U) :
    0 < align n := by
  rw [align_eq_of_lt hU]
  have h8 : 8 ≤ n + 7 := by omega
  have : 1 ≤ (n + 7) / 8 := (Nat.one_le_div_iff (by omega)).mpr h8
  omega

theorem getSize_setNext (h : Heap) (a x c : Nat) :
    getSize (setNext h a x) c = getSize h c := by
  unfold getSize setNext hupd
  by_cases hc : c = a <;> simp [hc]

theorem getSize_setPrev (h : Heap) (a x c : Nat) :
    getSize (setPrev h a x) c = getSize h c := by
  unfold getSize setPrev hupd
  by_cases hc : c = a <;> simp [hc]

theorem hupd_self (h : Heap) (a : Nat) (v : Header) : hupd h a v a = v := by
  unfold hupd
  rw [if_pos rfl]

theorem getSize_setFreeBit_self (h : Heap) (a f : Nat) (hf : f < 2) :
    getSize (setFreeBit h a f) a = getSize h a := by
  rw [getSize, setFreeBit, hupd_self]
  show (hSetFreeBit (h a).internal f) &&& (U - 8) = _
  rw [hSetFreeBit, hGetSize, and_lor_distrib, and_mask_idem,
    and_mask_small hf, Nat.or_zero, getSize, hGetSize]

theorem getSize_setSize_setFreeBit (h : Heap) (b aligned : Nat)
    (hsz : aligned % 8 = 0) (haU : aligned < U) :
    getSize (setFreeBit (setSize h b aligned) b 0) b = aligned := by
  have hbit : (h b).internal &&& 1 < 2 :=
    lt_of_le_of_lt Nat.and_le_right (by decide)
  rw [getSize, setFreeBit, hupd_self]
  show (hSetFreeBit ((setSize h b aligned) b).internal 0) &&& (U - 8) = _
  rw [setSize, hupd_self]
  show (hSetFreeBit (hSetSize (h b).internal aligned) 0) &&& (U - 8) = _
  rw [hSetFreeBit, hSetSize, hGetSize, hGetFreeBit, Nat.or_zero,
    and_mask_idem, and_lor_distrib, and_mask_self haU hsz,
    and_mask_small hbit, Nat.or_zero]

/-- After `split(b, aligned)` the block `b` holds at least `aligned`
data bytes: either the block was kept whole (old size at least the
request) or it was shrunk to exactly `aligned`. -/
theorem splitFn_size_ge {h : Heap} {b aligned : Nat}
    (hsz : aligned % 8 = 0) (haU : aligned + 24 < U)
    (hbU : getSize h b + 24 < U) (hge : aligned + 24 ≤ getTotal h b) :
    aligned ≤ getSize (splitFn h b aligned) b := by
  have htot : getTotal h b = getSize h b + 24 := by
    rw [getTotal, wadd, Nat.mod_eq_of_lt hbU]
  have hnta : wadd aligned 24 = aligned + 24 := by
    rw [wadd, Nat.mod_eq_of_lt haU]
  simp only [splitFn]
  split
  · rw [getSize_setFreeBit_self h b 0 (by decide)]
    omega
  · rw [getSize_setNext,
      getSize_setSize_setFreeBit _ b aligned hsz (by omega)]

/-- Accumulated best-fit state: once the flag is set by an element of
the list, the reported block fits and is the candidate or a list
element. -/
theorem bfFold_found (h : Heap) (size : Nat) :
    ∀ (l : List Nat) (found : Bool) (mn mb : Nat),
      (found = true → fitsB h size mb = true) →
      (bfFold h size l found mn mb).1 = true →
      fitsB h size (bfFold h size l found mn mb).2.2 = true ∧
        ((bfFold h size l found mn mb).2.2 ∈ l ∨
          (bfFold h size l found mn mb).2.2 = mb)
  | [], found, mn, mb, hpre, hf => ⟨hpre hf, Or.inr rfl⟩
  | c :: rest, found, mn, mb, hpre, hf => by
    rw [bfFold] at hf ⊢
    by_cases hcond : (fitsB h size c && decide (getTotal h c < mn)) = true
    · rw [if_pos hcond] at hf ⊢
      have hfc : fitsB h size c = true := by
        cases hx : fitsB h size c
        · rw [hx, Bool.false_and] at hcond
          exact absurd hcond (by simp)
        · rfl
      obtain ⟨ha, hb⟩ :=
        bfFold_found h size rest true (getTotal h c) c (fun _ => hfc) hf
      refine ⟨ha, ?_⟩
      rcases hb with hin | heq
      · exact Or.inl (List.mem_cons_of_mem _ hin)
      · exact Or.inl (by rw [heq]; exact List.mem_cons_self c rest)
    · rw [if_neg hcond] at hf ⊢
      obtain ⟨ha, hb⟩ := bfFold_found h size rest found mn mb hpre hf
      refine ⟨ha, ?_⟩
      rcases hb with hin | heq
      · exact Or.inl (List.mem_cons_of_mem _ hin)
      · exact Or.inr heq
  termination_by l => l.length

/-- Entry form: starting not-found, a `true` flag means the winner is a
fitting list element. -/
theorem bfFold_sound (h : Heap) (size : Nat) :
    ∀ (l : List Nat) (mn mb : Nat),
      (bfFold h size l false mn mb).1 = true →
      (bfFold h size l false mn mb).2.2 ∈ l ∧
        fitsB h size (bfFold h size l false mn mb).2.2 = true
  | [], mn, mb, hf => by
    rw [bfFold] at hf
    exact absurd hf (by simp)
  | c :: rest, mn, mb, hf => by
    rw [bfFold] at hf ⊢
    by_cases hcond : (fitsB h size c && decide (getTotal h c < mn)) = true
    · rw [if_pos hcond] at hf ⊢
      have hfc : fitsB h size c = true := by
        cases hx : fitsB h size c
        · rw [hx, Bool.false_and] at hcond
          exact absurd hcond (by simp)
        · rfl
      obtain ⟨ha, hb⟩ :=
        bfFold_found h size rest true (getTotal h c) c (fun _ => hfc) hf
      refine ⟨?_, ha⟩
      rcases hb with hin | heq
      · exact List.mem_cons_of_mem _ hin
      · rw [heq]
        exact List.mem_cons_self c rest
    · rw [if_neg hcond] at hf ⊢
      obtain ⟨hm, ha⟩ := bfFold_sound h size rest mn mb hf
      exact ⟨List.mem_cons_of_mem _ hm, ha⟩

/-- Whatever the strategy, a search that reports `found = true` returns
a fitting free block of the chain. -/
theorem searchSpot_sound (strat : Strategy) (h : Heap)
    (root fuel size : Nat) (bs : List Nat)
    (hch : chainOfB h root bs = true) (hfuel : bs.length ≤ fuel)
    (blk : Nat)
    (hres : searchSpot strat h root fuel size = (blk, true)) :
    blk ∈ bs ∧ fitsB h size blk = true := by
  cases strat
  case firstFit =>
    rw [searchSpot, ffChain h size bs root fuel hch hfuel] at hres
    cases hf : bs.find? (fitsB h size) with
    | none =>
      rw [hf] at hres
      simp at hres
    | some b =>
      rw [hf] at hres
      have hb : b = blk := by
        have := congrArg Prod.fst hres
        simpa using this
      subst hb
      exact ⟨List.mem_of_find?_eq_some hf, List.find?_some hf⟩
  case bestFit =>
    rw [searchSpot,
      bfChain h size bs root fuel false (U - 1) root hch hfuel] at hres
    by_cases hb : (bfFold h size bs false (U - 1) root).1 = true
    · rw [if_pos hb] at hres
      obtain ⟨hm, ha⟩ := bfFold_sound h size bs (U - 1) root hb
      have hbk : (bfFold h size bs false (U - 1) root).2.2 = blk := by
        have := congrArg Prod.fst hres
        simpa using this
      rw [hbk] at hm ha
      exact ⟨hm, ha⟩
    · rw [if_neg hb] at hres
      simp at hres

theorem brkM_heap (s : MState) (addr : Nat) :
    (brkM s addr).2.heap = s.heap ∧ (brkM s addr).2.root = s.root := by
  rw [brkM, kernelCall]
  by_cases hc : s.minBrk ≤ addr ∧ addr ≤ s.limit <;> simp [hc]

theorem sbrkM_heap (s : MState) (i : Nat) :
    (sbrkM s i).2.heap = s.heap ∧ (sbrkM s i).2.root = s.root := by
  rw [sbrkM]
  by_cases hc : s.curBrk = 0
  · rw [if_pos hc]
    constructor
    · rw [(brkM_heap _ _).1, (brkM_heap s 0).1]
    · rw [(brkM_heap _ _).2, (brkM_heap s 0).2]
  · rw [if_neg hc]
    exact brkM_heap s _

/-- A granted `sbrk` call: the cached break and the kernel agree, the
request stays in `[minBrk, limit]`, so `sbrk(delta)` returns the new
break `curBrk + delta` and caches it. -/
theorem sbrk_grant (s : MState) (delta : Nat) (h0 : 0 < s.curBrk)
    (h1 : s.minBrk ≤ s.curBrk + delta) (h2 : s.curBrk + delta ≤ s.limit)
    (h3 : s.curBrk + delta < U) :
    (sbrkM s delta).1 = ((s.curBrk + delta : Nat) : Int) ∧
    (sbrkM s delta).2.curBrk = s.curBrk + delta := by
  have hc : ¬ s.curBrk = 0 := by omega
  have hw : wadd s.curBrk delta = s.curBrk + delta := by
    rw [wadd, Nat.mod_eq_of_lt h3]
  unfold sbrkM brkM kernelCall
  simp only [hc, if_false, ite_false, hw, if_pos (And.intro h1 h2)]
  constructor
  · rw [if_neg (by omega)]
  · trivial

theorem usizeOfInt_ofNat {n : Nat} (h : n < U) :
    usizeOfInt (n : Int) = n := by
  rw [usizeOfInt]
  have h1 : ((n : Int) % (U : Int)) = (n : Int) := by
    apply Int.emod_eq_of_lt
    · exact Int.ofNat_nonneg n
    · exact_mod_cast h
  rw [h1]
  rfl

/-- C10 (amended): for every `size` with `0 < size`, `size + 7 < 2^64`
and `align size + 24 < 2^64` (no overflow in the aligned request), an
initialised allocator whose chain blocks have sane sizes and addresses,
and a kernel that grants break requests, `malloc` returns `Except.ok`
with the non-null data pointer `b + 24` of a block holding at least
`align size > 0` data bytes — so the internal `data().unwrap()` cannot
panic and the result is never null. -/
theorem C10_malloc_success (strat : Strategy) (fuel : Nat) (s : MState)
    (size : Nat) (bs : List Nat)
    (hroot : ¬ s.root = 0)
    (hch : chainOfB s.heap s.root bs = true)
    (hfuel : bs.length ≤ fuel)
    (hs0 : 0 < size) (hsU : size + 7 < U) (haU : align size + 24 < U)
    (hw : ∀ b ∈ bs, b + 24 < U ∧ getSize s.heap b + 24 < U)
    (hbrk : 0 < s.curBrk) (hb1 : s.minBrk ≤ s.curBrk)
    (hb2 : s.curBrk ≤ s.limit) (hb3 : s.limit + 24 < U) :
    ∃ b, ptrOf (mallocM strat fuel s size) = some (wadd b 24) ∧
      align size ≤ getSize (stateOf s (mallocM strat fuel s size)).heap b ∧
      0 < getSize (stateOf s (mallocM strat fuel s size)).heap b ∧
      wadd b 24 ≠ 0 := by
  have hone : ¬ size = 0 := by omega
  have halpos : 0 < align size := align_pos hs0 hsU
  have hal8 : align size % 8 = 0 := align_mod8 size
  have htotal : wadd (align size) 24 = align size + 24 := by
    rw [wadd, Nat.mod_eq_of_lt haU]
  rcases hsp : searchSpot strat s.heap s.root fuel (wadd (align size) 24)
    with ⟨blk, found⟩
  cases found
  case true =>
    obtain ⟨hmem, hfit⟩ := searchSpot_sound strat s.heap s.root fuel
      (wadd (align size) 24) bs hch hfuel blk hsp
    obtain ⟨hblkU, hszU⟩ := hw blk hmem
    have hge : align size + 24 ≤ getTotal s.heap blk := by
      have hand := (Bool.and_eq_true _ _).mp hfit
      have h2 := of_decide_eq_true hand.2
      rwa [htotal] at h2
    have hs24 : align size ≤ getSize (splitFn s.heap blk (align size)) blk :=
      splitFn_size_ge hal8 haU hszU hge
    have hnz : ¬ getSize (splitFn s.heap blk (align size)) blk = 0 := by
      omega
    have hb24 : wadd blk 24 = blk + 24 := by
      rw [wadd, Nat.mod_eq_of_lt hblkU]
    have hcomp : mallocM strat fuel s size =
        .ok (wadd blk 24, { s with heap := splitFn s.heap blk (align size) }) := by
      simp only [mallocM, if_neg hone, if_neg hroot]
      rw [hsp]
      simp only [if_true, if_neg hnz]
    refine ⟨blk, ?_, ?_, ?_, ?_⟩
    · rw [hcomp]
      rfl
    · rw [hcomp]
      exact hs24
    · rw [hcomp]
      exact lt_of_lt_of_le halpos hs24
    · rw [hb24]
      omega
  case false =>
    have hsq := sbrk_grant s 0 hbrk (by omega) (by omega) (by omega)
    rcases hsb0 : sbrkM s 0 with ⟨c0, s1⟩
    have hc0 : c0 = ((s.curBrk : Nat) : Int) := by
      have := hsq.1
      rw [hsb0] at this
      simpa using this
    have hcur : usizeOfInt c0 = s.curBrk := by
      rw [hc0]
      exact usizeOfInt_ofNat (by omega)
    have hs1h : s1.heap = s.heap := by
      have := (sbrkM_heap s 0).1
      rw [hsb0] at this
      exact this
    have hs2h : ∀ t : Nat, (sbrkM s1 t).2.heap = s.heap := by
      intro t
      rw [(sbrkM_heap s1 t).1, hs1h]
    have hgz : ∀ hp : Heap,
        getSize (setNext (setPrev (hupd hp s.curBrk ⟨align size, 0, 0⟩)
          s.curBrk blk) blk s.curBrk) s.curBrk = align size := by
      intro hp
      rw [getSize_setNext, getSize_setPrev, getSize, hupd_self]
      exact and_mask_self (align_lt_U size) hal8
    have hnz : ¬ getSize (setNext (setPrev
        (hupd (sbrkM s1 (wadd (align size) 24)).2.heap s.curBrk
          ⟨align size, 0, 0⟩) s.curBrk blk) blk s.curBrk) s.curBrk = 0 := by
      rw [hgz]
      omega
    have hcomp : mallocM strat fuel s size =
        .ok (wadd s.curBrk 24,
          { (sbrkM s1 (wadd (align size) 24)).2 with
            heap := setNext (setPrev
              (hupd (sbrkM s1 (wadd (align size) 24)).2.heap s.curBrk
                ⟨align size, 0, 0⟩) s.curBrk blk) blk s.curBrk }) := by
      simp only [mallocM, if_neg hone, if_neg hroot]
      rw [hsp]
      simp only [Bool.false_eq_true, if_false, hsb0, hcur, if_neg hnz]
    have hc24 : wadd s.curBrk 24 = s.curBrk + 24 := by
      rw [wadd, Nat.mod_eq_of_lt (by omega)]
    refine ⟨s.curBrk, ?_, ?_, ?_, ?_⟩
    · rw [hcomp]
      rfl
    · rw [hcomp]
      show align size ≤ getSize (setNext (setPrev _ _ _) _ _) s.curBrk
      rw [hgz]
    · rw [hcomp]
      show 0 < getSize (setNext (setPrev _ _ _) _ _) s.curBrk
      rw [hgz]
      exact halpos
    · rw [hc24]
      omega

/-- Initialised allocator state with a generous kernel, used for C10. -/
def c10State : MState :=
  { heap := fun _ => ⟨0, 0, 0⟩, root := 1000, curBrk := 1024,
    kernelBrk := 1024, minBrk := 1000, limit := 100000 }

/-- Counterexample to C10 as stated: at `size = 2^64 - 1` (with the
break call succeeding — only 24 bytes are requested after the wrapped
alignment) `align size = 0`, malloc writes a zero-size header for the
new block, and `data().unwrap()` panics. -/
theorem C10_malloc_cex :
    align (2 ^ 64 - 1) = 0 ∧
    panicOf (mallocM .firstFit 5 c10State (2 ^ 64 - 1)) =
      some .unwrapNone := by
  refine ⟨by decide, by decide⟩

/-- Witness for the amended C10 at `c10State`, `size = 8`. -/
theorem C10_malloc_success_witness :
    ((¬ c10State.root = 0) ∧
      chainOfB c10State.heap c10State.root ([] : List Nat) = true ∧
      ([] : List Nat).length ≤ 5 ∧ 0 < 8 ∧ 8 + 7 < U ∧
      align 8 + 24 < U ∧ 0 < c10State.curBrk ∧
      c10State.minBrk ≤ c10State.curBrk ∧
      c10State.curBrk ≤ c10State.limit ∧ c10State.limit + 24 < U) ∧
    (∃ b, ptrOf (mallocM .firstFit 5 c10State 8) = some (wadd b 24) ∧
      align 8 ≤ getSize (stateOf c10State (mallocM .firstFit 5 c10State 8)).heap b ∧
      0 < getSize (stateOf c10State (mallocM .firstFit 5 c10State 8)).heap b ∧
      wadd b 24 ≠ 0) :=
  ⟨⟨by decide, by decide, by decide, by decide, by decide, by decide,
      by decide, by decide, by decide, by decide⟩,
    C10_malloc_success .firstFit 5 c10State 8 [] (by decide) (by decide)
      (by decide) (by decide) (by decide) (by decide)
      (by intro b hb; exact absurd hb (List.not_mem_nil b))
      (by decide) (by decide) (by decide) (by decide)⟩

/-! ## The segmented queue model (`src/queue/mod.rs`)

The queue stores elements through raw pointers into regions obtained
from the allocator.  The embedding models the two kinds of malloc-owned
memory with two heaps: `elemMem` (element slots, at byte addresses,
`none` = never written, modelling uninitialised malloc memory) and
`segMem` (segment descriptors, one address per descriptor).  The
allocator itself is abstracted by two bump counters handing out fresh,
pairwise-disjoint regions — the only property of `malloc` the queue
relies on — and `free` is a no-op (the queue never touches a region
after freeing it within one locked operation).  The segment-descriptor
address 0 plays the role of the null `*mut Segment`, as in the source;
fresh descriptor addresses therefore start at 1.  `sz` stands for
`size_of::<T>()`.  All operations run under the single queue lock, so
the model is the sequence of locked operations in lock order. -/

structure Seg where
  next : Nat
  origin : Nat
  len : Nat

structure QState (α : Type) where
  head : Nat
  tail : Nat
  headSeg : Nat
  tailSeg : Nat
  size : Nat
  elemMem : Nat → Option α
  segMem : Nat → Seg
  elemBump : Nat
  segBump : Nat

def updElem {α : Type} (m : Nat → Option α) (a : Nat) (v : Option α) :
    Nat → Option α :=
  fun x => if x = a then v else m x

def updSeg (m : Nat → Seg) (a : Nat) (v : Seg) : Nat → Seg :=
  fun x => if x = a then v else m x

/-- `fn allocate_next(&mut self)`: malloc a fresh data region of
`CAPACITY_INC * sz` bytes and a fresh descriptor, initialise the
descriptor, and link it as `tail_segment.next`. -/
def allocateNext {α : Type} (sz : Nat) (s : QState α) : QState α :=
  let origin := s.elemBump
  let seg := s.segBump
  let m1 := updSeg s.segMem seg ⟨0, origin, 32 * sz⟩
  let m2 := updSeg m1 s.tailSeg { (m1 s.tailSeg) with next := seg }
  { s with
    segMem := m2
    elemBump := s.elemBump + 32 * sz
    segBump := s.segBump + 1 }

/-- `pub fn push(&mut self, item: T)`.  The Rust binding
`tail_segment` is a reference into memory, so its `next` field read at
the segment transition sees the descriptor installed by
`allocate_next`; the model re-reads `segMem s.tailSeg` accordingly. -/
def qpush {α : Type} (sz : Nat) (v : α) (s0 : QState α) : QState α :=
  let s1 := if (s0.segMem s0.tailSeg).next = 0 then allocateNext sz s0 else s0
  let s2 :=
    { s1 with
      size := (s1.size + 1) % U
      elemMem := updElem s1.elemMem s1.tail (some v) }
  let ts := s2.segMem s2.tailSeg
  if ts.origin + ts.len ≤ s2.tail + sz then
    { s2 with tailSeg := ts.next, tail := (s2.segMem ts.next).origin }
  else
    { s2 with tail := s2.tail + sz }

/-- `pub fn pop(&mut self)`.  Returns `none` when the queue is empty,
else `some (content of the head slot)` — the value behind the reference
the Rust function hands back — and the new state.  The two `free` calls
of the segment-transition branch are no-ops in the bump-allocator
abstraction. -/
def qpop {α : Type} (sz : Nat) (s0 : QState α) :
    Option (Option α) × QState α :=
  if s0.size = 0 then (none, s0)
  else
    let res := s0.elemMem s0.head
    let hs := s0.segMem s0.headSeg
    let s1 :=
      if hs.origin + hs.len ≤ s0.head + sz then
        { s0 with headSeg := hs.next, head := (s0.segMem hs.next).origin }
      else
        { s0 with head := s0.head + sz }
    (some res, { s1 with size := s1.size - 1 })

/-- `pub fn new()`: one data region of `INITIAL_CAPACITY * sz` bytes
(here at element address 0), one descriptor (at descriptor address 1),
and the size word.  The source never initialises the size word; `w` is
whatever the malloc'd word contained (0 for fresh break memory). -/
def qnew (α : Type) (sz : Nat) (w : Nat) : QState α :=
  { head := 0, tail := 0, headSeg := 1, tailSeg := 1, size := w,
    elemMem := fun _ => none,
    segMem := updSeg (fun _ => ⟨0, 0, 0⟩) 1 ⟨0, 0, 32 * sz⟩,
    elemBump := 32 * sz, segBump := 2 }

/-- One queue operation, in the total order induced by the queue lock. -/
inductive QOp (α : Type) where
  | push : α → QOp α
  | pop : QOp α

/-- Run a sequence of operations; returns the final state, the list of
pushed values (in push order) and the list of values returned by
successful pops (in pop order). -/
def runOps {α : Type} (sz : Nat) :
    List (QOp α) → QState α → QState α × List α × List (Option α)
  | [], s => (s, [], [])
  | .push v :: rest, s =>
    let r := runOps sz rest (qpush sz v s)
    (r.1, v :: r.2.1, r.2.2)
  | .pop :: rest, s =>
    let p := qpop sz s
    let r := runOps sz rest p.2
    (r.1, r.2.1,
      match p.1 with
      | none => r.2.2
      | some v => v :: r.2.2)

theorem updSeg_self (m : Nat → Seg) (a : Nat) (v : Seg) :
    updSeg m a v a = v := by
  unfold updSeg
  rw [if_pos rfl]

theorem updSeg_ne (m : Nat → Seg) (a : Nat) (v : Seg) {x : Nat}
    (h : x ≠ a) : updSeg m a v x = m x := by
  unfold updSeg
  rw [if_neg h]

theorem updElem_self {α : Type} (m : Nat → Option α) (a : Nat)
    (v : Option α) : updElem m a v a = v := by
  unfold updElem
  rw [if_pos rfl]

theorem updElem_ne {α : Type} (m : Nat → Option α) (a : Nat)
    (v : Option α) {x : Nat} (h : x ≠ a) : updElem m a v x = m x := by
  unfold updElem
  rw [if_neg h]

/-- Invariant tying a queue state to its abstract contents `q`.

Because both model allocators hand out consecutive regions, the live
segments are fully determined by two numbers: `b` (the allocation index
of the head segment; its descriptor lives at address `b + 1`, its data
region starts at element address `sz * (32 * b)`) and `n ≥ 1` (the
number of live segments).  `hI`/`tI` are the element indices of `head`
in the first and `tail` in the last live segment, and `extra` records
whether the one segment `push` pre-allocates ahead of the tail already
exists.  The live slots then form the contiguous canonical range
`[32 b + hI, 32 (b + n - 1) + tI)`, which `q` fills in order. -/
structure QInv {α : Type} (sz : Nat) (s : QState α)
    (b n hI tI : Nat) (extra : Bool) (q : List α) : Prop where
  hsz : 0 < sz
  hn : 0 < n
  hhs : s.headSeg = b + 1
  hh : s.head = sz * (32 * b + hI)
  hts : s.tailSeg = b + n
  ht : s.tail = sz * (32 * (b + (n - 1)) + tI)
  hhi : hI < 32
  hti : tI < 32
  hone : n = 1 → hI ≤ tI
  hseg : ∀ i, i < n → s.segMem (b + 1 + i) =
    ⟨if i = n - 1 then (if extra then b + n + 1 else 0) else b + 2 + i,
      sz * (32 * (b + i)), 32 * sz⟩
  hextra : extra = true →
    s.segMem (b + n + 1) = ⟨0, sz * (32 * (b + n)), 32 * sz⟩
  hsb : s.segBump = if extra then b + n + 2 else b + n + 1
  heb : s.elemBump =
    if extra then sz * (32 * (b + n + 1)) else sz * (32 * (b + n))
  hlen : q.length + hI = 32 * (n - 1) + tI
  hmem : ∀ j, (hj : j < q.length) →
    s.elemMem (sz * (32 * b + hI + j)) = some q[j]
  hsize : s.size = q.length
  hqU : q.length < U

theorem mul_le_cancel_iff {sz a c : Nat} (h : 0 < sz) :
    sz * a ≤ sz * c ↔ a ≤ c :=
  ⟨fun hh => Nat.le_of_mul_le_mul_left hh h,
    fun hh => Nat.mul_le_mul_left sz hh⟩

theorem mul_eq_cancel_iff {sz a c : Nat} (h : 0 < sz) :
    sz * a = sz * c ↔ a = c :=
  ⟨fun hh => Nat.eq_of_mul_eq_mul_left h hh, fun hh => by rw [hh]⟩

/-- A fresh queue (with a zeroed size word) satisfies the invariant
with one live segment, no pre-allocated segment and empty contents. -/
theorem qnew_inv (α : Type) (sz : Nat) (hsz : 0 < sz) :
    QInv sz (qnew α sz 0) 0 1 0 0 false [] := by
  refine
    { hsz := hsz, hn := by omega, hhs := rfl, hh := by simp [qnew],
      hts := rfl, ht := by simp [qnew], hhi := by omega, hti := by omega,
      hone := fun _ => le_refl 0, hseg := ?_, hextra := by simp,
      hsb := rfl, heb := by simp [qnew, Nat.mul_comm], hlen := by simp,
      hmem := ?_, hsize := rfl, hqU := by show (0 : Nat) < U; decide }
  · intro i hi
    have hi0 : i = 0 := by omega
    subst hi0
    show updSeg (fun _ => ⟨0, 0, 0⟩) 1 ⟨0, 0, 32 * sz⟩ 1 = _
    rw [updSeg_self]
    simp
  · intro j hj
    exact absurd hj (by simp)

/-- Stage A of `push`: after the pre-allocation check, the invariant
holds with `extra = true` (a segment beyond the tail exists). -/
theorem qpush_stageA {α : Type} {sz : Nat} {s : QState α}
    {b n hI tI : Nat} {extra : Bool} {q : List α}
    (H : QInv sz s b n hI tI extra q) :
    QInv sz (if (s.segMem s.tailSeg).next = 0 then allocateNext sz s else s)
      b n hI tI true q := by
  have hn := H.hn
  have hlast := H.hseg (n - 1) (by omega)
  have hlastaddr : b + 1 + (n - 1) = b + n := by omega
  rw [hlastaddr] at hlast
  cases hx : extra
  · subst hx
    have hsb : s.segBump = b + n + 1 := by
      have := H.hsb
      simpa using this
    have heb : s.elemBump = sz * (32 * (b + n)) := by
      have := H.heb
      simpa using this
    have hnext : (s.segMem s.tailSeg).next = 0 := by
      rw [H.hts, hlast]
      simp
    rw [if_pos hnext]
    refine
      { hsz := H.hsz, hn := H.hn, hhs := H.hhs, hh := H.hh,
        hts := H.hts, ht := H.ht, hhi := H.hhi, hti := H.hti,
        hone := H.hone, hseg := ?_, hextra := ?_, hsb := ?_, heb := ?_,
        hlen := H.hlen, hmem := H.hmem, hsize := H.hsize, hqU := H.hqU }
    · intro i hi
      show updSeg (updSeg s.segMem s.segBump ⟨0, s.elemBump, 32 * sz⟩)
        s.tailSeg _ (b + 1 + i) = _
      by_cases hieq : i = n - 1
      · subst hieq
        rw [hlastaddr, H.hts, hsb, updSeg_self,
          updSeg_ne _ _ _ (by omega), hlast]
        simp
      · rw [H.hts, hsb, updSeg_ne _ _ _ (by omega),
          updSeg_ne _ _ _ (by omega), H.hseg i hi]
        simp [hieq]
    · intro _
      show updSeg (updSeg s.segMem s.segBump ⟨0, s.elemBump, 32 * sz⟩)
        s.tailSeg _ (b + n + 1) = _
      rw [H.hts, hsb, updSeg_ne _ _ _ (by omega), updSeg_self, heb]
    · show s.segBump + 1 = b + n + 2
      rw [hsb]
    · show s.elemBump + 32 * sz = sz * (32 * (b + n + 1))
      rw [heb]
      ring
  · subst hx
    have hnext : (s.segMem s.tailSeg).next = b + n + 1 := by
      rw [H.hts, hlast]
      simp
    rw [if_neg (by rw [hnext]; omega)]
    exact H

/-- Reformulation of `qpush` reading the segment table through the
stage-A state (the intermediate size/element writes do not touch it). -/
theorem qpush_eq {α : Type} (sz : Nat) (v : α) (s0 : QState α) :
    qpush sz v s0 =
      (let s1 := if (s0.segMem s0.tailSeg).next = 0 then allocateNext sz s0
        else s0
      let s2 : QState α :=
        { s1 with
          size := (s1.size + 1) % U
          elemMem := updElem s1.elemMem s1.tail (some v) }
      if (s1.segMem s1.tailSeg).origin + (s1.segMem s1.tailSeg).len ≤
          s1.tail + sz then
        { s2 with
          tailSeg := (s1.segMem s1.tailSeg).next
          tail := (s1.segMem ((s1.segMem s1.tailSeg).next)).origin }
      else
        { s2 with tail := s1.tail + sz }) := rfl

/-- `qpush` with the stage-A state named. -/
theorem qpush_eq2 {α : Type} (sz : Nat) (v : α) (s0 s1 : QState α)
    (h : (if (s0.segMem s0.tailSeg).next = 0 then allocateNext sz s0
      else s0) = s1) :
    qpush sz v s0 =
      (if (s1.segMem s1.tailSeg).origin + (s1.segMem s1.tailSeg).len ≤
          s1.tail + sz then
        { s1 with
          size := (s1.size + 1) % U
          elemMem := updElem s1.elemMem s1.tail (some v)
          tailSeg := (s1.segMem s1.tailSeg).next
          tail := (s1.segMem ((s1.segMem s1.tailSeg).next)).origin }
      else
        { s1 with
          size := (s1.size + 1) % U
          elemMem := updElem s1.elemMem s1.tail (some v)
          tail := s1.tail + sz }) := by
  subst h
  rfl

/-- `push` preserves the invariant and appends the pushed value. -/
theorem qpush_inv {α : Type} {sz : Nat} {s : QState α}
    {b n hI tI : Nat} {extra : Bool} {q : List α} (v : α)
    (H : QInv sz s b n hI tI extra q) (hq1 : q.length + 1 < U) :
    ∃ n' tI' extra',
      QInv sz (qpush sz v s) b n' hI tI' extra' (q ++ [v]) := by
  have HA := qpush_stageA H
  rw [qpush_eq2 sz v s _ rfl]
  generalize hgen :
    (if (s.segMem s.tailSeg).next = 0 then allocateNext sz s else s) = s1
  rw [hgen] at HA
  have hn := HA.hn
  have hts1seg : s1.segMem (b + n) =
      ⟨b + n + 1, sz * (32 * (b + (n - 1))), 32 * sz⟩ := by
    have hx := HA.hseg (n - 1) (by omega)
    rw [show b + 1 + (n - 1) = b + n by omega] at hx
    rw [hx]
    simp
  have hwaddr : s1.tail = sz * (32 * b + hI + q.length) := by
    rw [HA.ht]
    have := HA.hlen
    congr 1
    omega
  have hmem2 : ∀ j, (hj : j < (q ++ [v]).length) →
      updElem s1.elemMem s1.tail (some v) (sz * (32 * b + hI + j)) =
      some ((q ++ [v])[j]) := by
    intro j hj
    have hjlen : j < q.length + 1 := by simpa using hj
    by_cases hje : j = q.length
    · subst hje
      rw [hwaddr, updElem_self, List.getElem_concat_length _ _ _ rfl]
    · have hjq : j < q.length := by omega
      have hne : sz * (32 * b + hI + j) ≠ sz * (32 * b + hI + q.length) := by
        intro hco
        have := (mul_eq_cancel_iff HA.hsz).mp hco
        omega
      rw [hwaddr, updElem_ne _ _ _ hne, HA.hmem j hjq,
        List.getElem_append_left hjq]
  have hsz2 : ((s1.size + 1) % U) = q.length + 1 := by
    rw [HA.hsize, Nat.mod_eq_of_lt hq1]
  have hcond : ((s1.segMem s1.tailSeg).origin + (s1.segMem s1.tailSeg).len ≤
      s1.tail + sz) ↔ 32 ≤ tI + 1 := by
    rw [HA.hts, hts1seg, HA.ht]
    show sz * (32 * (b + (n - 1))) + 32 * sz ≤
      sz * (32 * (b + (n - 1)) + tI) + sz ↔ _
    rw [show sz * (32 * (b + (n - 1))) + 32 * sz =
        sz * (32 * (b + (n - 1)) + 32) by ring,
      show sz * (32 * (b + (n - 1)) + tI) + sz =
        sz * (32 * (b + (n - 1)) + tI + 1) by ring,
      mul_le_cancel_iff HA.hsz]
    omega
  by_cases htI : tI = 31
  · refine ⟨n + 1, 0, false, ?_⟩
    rw [if_pos (hcond.mpr (by omega))]
    refine
      { hsz := HA.hsz, hn := by omega, hhs := HA.hhs, hh := HA.hh,
        hts := ?_, ht := ?_, hhi := HA.hhi, hti := by omega,
        hone := fun h1 => absurd h1 (by omega), hseg := ?_,
        hextra := fun hco => Bool.noConfusion hco,
        hsb := ?_, heb := ?_, hlen := ?_, hmem := hmem2,
        hsize := ?_, hqU := by simpa using hq1 }
    · show (s1.segMem s1.tailSeg).next = b + (n + 1)
      rw [HA.hts, hts1seg]
      show b + n + 1 = b + (n + 1)
      omega
    · show (s1.segMem ((s1.segMem s1.tailSeg).next)).origin =
        sz * (32 * (b + (n + 1 - 1)) + 0)
      rw [HA.hts, hts1seg]
      show (s1.segMem (b + n + 1)).origin = sz * (32 * (b + (n + 1 - 1)) + 0)
      rw [HA.hextra rfl]
      show sz * (32 * (b + n)) = sz * (32 * (b + (n + 1 - 1)) + 0)
      congr 1
    · intro i hi
      show s1.segMem (b + 1 + i) = _
      by_cases hin : i = n
      · rw [hin, show b + 1 + n = b + n + 1 by omega, HA.hextra rfl]
        simp
      · have hi2 : i < n := by omega
        rw [HA.hseg i hi2]
        by_cases hieq : i = n - 1
        · subst hieq
          rw [if_pos rfl, if_neg (show ¬ (n - 1 = n + 1 - 1) by omega)]
          congr 1
          show (if (true : Bool) = true then b + n + 1 else 0) = b + 2 + (n - 1)
          rw [if_pos rfl]
          omega
        · rw [if_neg hieq, if_neg (show ¬ (i = n + 1 - 1) by omega)]
    · show s1.segBump = b + (n + 1) + 1
      rw [HA.hsb]
      show b + n + 2 = b + (n + 1) + 1
      omega
    · show s1.elemBump = sz * (32 * (b + (n + 1)))
      rw [HA.heb]
      show sz * (32 * (b + n + 1)) = sz * (32 * (b + (n + 1)))
      congr 2
    · have hl := HA.hlen
      simp only [List.length_append, List.length_singleton]
      omega
    · show (s1.size + 1) % U = (q ++ [v]).length
      rw [hsz2]
      simp
  · refine ⟨n, tI + 1, true, ?_⟩
    rw [if_neg (by
      intro hc
      exact htI (by
        have h1 := hcond.mp hc
        have h2 := HA.hti
        omega))]
    refine
      { hsz := HA.hsz, hn := HA.hn, hhs := HA.hhs, hh := HA.hh,
        hts := HA.hts, ht := ?_, hhi := HA.hhi,
        hti := by have := HA.hti; omega,
        hone := fun h1 => le_trans (HA.hone h1) (by omega),
        hseg := HA.hseg, hextra := HA.hextra, hsb := HA.hsb,
        heb := HA.heb, hlen := ?_, hmem := hmem2,
        hsize := ?_, hqU := by simpa using hq1 }
    · show s1.tail + sz = sz * (32 * (b + (n - 1)) + (tI + 1))
      rw [HA.ht]
      ring
    · have hl := HA.hlen
      simp only [List.length_append, List.length_singleton]
      omega
    · show (s1.size + 1) % U = (q ++ [v]).length
      rw [hsz2]
      simp

theorem seg_ext {a b c d e f : Nat} (h1 : a = d) (h2 : b = e)
    (h3 : c = f) : (⟨a, b, c⟩ : Seg) = ⟨d, e, f⟩ := by
  rw [h1, h2, h3]

/-- A pop on an empty queue returns `none` and leaves the state
untouched. -/
theorem qpop_empty {α : Type} {sz : Nat} {s : QState α}
    {b n hI tI : Nat} {extra : Bool}
    (H : QInv sz s b n hI tI extra []) : qpop sz s = (none, s) := by
  rw [qpop, if_pos (by rw [H.hsize]; rfl)]

/-- `qpop` on a non-empty queue with the two branches spelled out. -/
theorem qpop_eq2 {α : Type} (sz : Nat) (s0 : QState α)
    (h : ¬ s0.size = 0) :
    qpop sz s0 =
      (some (s0.elemMem s0.head),
        if (s0.segMem s0.headSeg).origin + (s0.segMem s0.headSeg).len ≤
            s0.head + sz then
          { s0 with
            headSeg := (s0.segMem s0.headSeg).next
            head := (s0.segMem ((s0.segMem s0.headSeg).next)).origin
            size := s0.size - 1 }
        else
          { s0 with head := s0.head + sz, size := s0.size - 1 }) := by
  rw [qpop, if_neg h]
  dsimp only
  by_cases hc : (s0.segMem s0.headSeg).origin + (s0.segMem s0.headSeg).len ≤
      s0.head + sz
  · rw [if_pos hc, if_pos hc]
  · rw [if_neg hc, if_neg hc]

/-- `pop` on a non-empty queue returns the front value and preserves
the invariant on the remaining contents. -/
theorem qpop_cons {α : Type} {sz : Nat} {s : QState α}
    {b n hI tI : Nat} {extra : Bool} {v : α} {q : List α}
    (H : QInv sz s b n hI tI extra (v :: q)) :
    (qpop sz s).1 = some (some v) ∧
      ∃ b' n' hI', QInv sz (qpop sz s).2 b' n' hI' tI extra q := by
  have hn := H.hn
  have hhi := H.hhi
  have hti := H.hti
  have hlen := H.hlen
  simp only [List.length_cons] at hlen
  have hqU := H.hqU
  simp only [List.length_cons] at hqU
  have hs0 : ¬ s.size = 0 := by
    rw [H.hsize]
    simp
  rw [qpop_eq2 sz s hs0]
  have hseg0 : s.segMem (b + 1) =
      ⟨if 0 = n - 1 then (if extra then b + n + 1 else 0) else b + 2,
        sz * (32 * b), 32 * sz⟩ := by
    have hx := H.hseg 0 hn
    simpa using hx
  have hres : s.elemMem s.head = some v := by
    have hx := H.hmem 0 (by simp)
    rw [H.hh]
    simpa using hx
  have hcond : ((s.segMem s.headSeg).origin + (s.segMem s.headSeg).len ≤
      s.head + sz) ↔ 32 ≤ hI + 1 := by
    rw [H.hhs, hseg0, H.hh]
    show sz * (32 * b) + 32 * sz ≤ sz * (32 * b + hI) + sz ↔ _
    rw [show sz * (32 * b) + 32 * sz = sz * (32 * b + 32) by ring,
      show sz * (32 * b + hI) + sz = sz * (32 * b + hI + 1) by ring,
      mul_le_cancel_iff H.hsz]
    omega
  refine ⟨by rw [hres], ?_⟩
  by_cases hI31 : hI = 31
  · -- segment transition: the head segment is retired
    have hn2 : 2 ≤ n := by omega
    have hnx : (if 0 = n - 1 then (if extra then b + n + 1 else 0)
        else b + 2) = b + 2 := by
      rw [if_neg (by omega)]
    have hseg1 : s.segMem (b + 2) =
        ⟨if 1 = n - 1 then (if extra then b + n + 1 else 0) else b + 3,
          sz * (32 * (b + 1)), 32 * sz⟩ := by
      have hx := H.hseg 1 (by omega)
      rw [show b + 1 + 1 = b + 2 by omega] at hx
      rw [hx]
    refine ⟨b + 1, n - 1, 0, ?_⟩
    rw [if_pos (hcond.mpr (by omega))]
    refine
      { hsz := H.hsz, hn := by omega, hhs := ?_, hh := ?_, hts := ?_,
        ht := ?_, hhi := by omega, hti := hti, hone := ?_, hseg := ?_,
        hextra := ?_, hsb := ?_, heb := ?_, hlen := by omega,
        hmem := ?_, hsize := ?_, hqU := by omega }
    · show (s.segMem s.headSeg).next = b + 1 + 1
      rw [H.hhs, hseg0]
      show (if 0 = n - 1 then (if extra then b + n + 1 else 0)
        else b + 2) = b + 1 + 1
      rw [hnx]
    · show (s.segMem ((s.segMem s.headSeg).next)).origin =
        sz * (32 * (b + 1) + 0)
      rw [H.hhs, hseg0]
      show (s.segMem (if 0 = n - 1 then (if extra then b + n + 1 else 0)
        else b + 2)).origin = sz * (32 * (b + 1) + 0)
      rw [hnx, hseg1]
      show sz * (32 * (b + 1)) = sz * (32 * (b + 1) + 0)
      congr 1
    · show s.tailSeg = b + 1 + (n - 1)
      rw [H.hts]
      omega
    · show s.tail = sz * (32 * (b + 1 + (n - 1 - 1)) + tI)
      rw [H.ht]
      congr 2
      omega
    · intro h1
      exact Nat.zero_le tI
    · intro i hi
      show s.segMem (b + 1 + 1 + i) = _
      have hx := H.hseg (i + 1) (by omega)
      rw [show b + 1 + 1 + i = b + 1 + (i + 1) by omega, hx]
      refine seg_ext ?_ ?_ rfl
      · split_ifs <;> omega
      · congr 1
        omega
    · intro hex
      show s.segMem (b + 1 + (n - 1) + 1) = _
      rw [show b + 1 + (n - 1) + 1 = b + n + 1 by omega, H.hextra hex]
      refine seg_ext rfl ?_ rfl
      congr 1
      omega
    · show s.segBump = _
      rw [H.hsb]
      split_ifs <;> omega
    · show s.elemBump = _
      rw [H.heb]
      split_ifs <;> (congr 1; omega)
    · intro j hj
      show s.elemMem (sz * (32 * (b + 1) + 0 + j)) = some q[j]
      have hx := H.hmem (j + 1) (by simp; omega)
      rw [show 32 * (b + 1) + 0 + j = 32 * b + hI + (j + 1) by omega, hx]
      simp
    · show s.size - 1 = q.length
      rw [H.hsize]
      simp
  · -- stay within the head segment
    refine ⟨b, n, hI + 1, ?_⟩
    rw [if_neg (by
      intro hc
      exact hI31 (by
        have h1 := hcond.mp hc
        omega))]
    refine
      { hsz := H.hsz, hn := hn, hhs := H.hhs, hh := ?_, hts := H.hts,
        ht := H.ht, hhi := by omega, hti := hti, hone := ?_,
        hseg := H.hseg, hextra := H.hextra, hsb := H.hsb, heb := H.heb,
        hlen := by omega, hmem := ?_, hsize := ?_,
        hqU := by omega }
    · show s.head + sz = sz * (32 * b + (hI + 1))
      rw [H.hh]
      ring
    · intro h1
      omega
    · intro j hj
      show s.elemMem (sz * (32 * b + (hI + 1) + j)) = some q[j]
      have hx := H.hmem (j + 1) (by simp; omega)
      rw [show 32 * b + (hI + 1) + j = 32 * b + hI + (j + 1) by omega, hx]
      simp
    · show s.size - 1 = q.length
      rw [H.hsize]
      simp

/-- FIFO over any operation sequence, generalised over a mid-run state:
the values popped during `ops` are the current contents followed by a
prefix of the values pushed during `ops`. -/
theorem runOps_fifo {α : Type} (sz : Nat) :
    ∀ (ops : List (QOp α)) (s : QState α) (b n hI tI : Nat)
      (extra : Bool) (q : List α),
      QInv sz s b n hI tI extra q → q.length + ops.length < U →
      ∃ t, (runOps sz ops s).2.2 ++ t =
        q.map some ++ ((runOps sz ops s).2.1).map some
  | [], s, b, n, hI, tI, extra, q, _, _ => by
    refine ⟨q.map some, ?_⟩
    simp [runOps]
  | .push v :: rest, s, b, n, hI, tI, extra, q, H, hU => by
    have hU1 : q.length + 1 < U := by
      simp only [List.length_cons] at hU
      omega
    obtain ⟨n', tI', extra', H'⟩ := qpush_inv v H hU1
    obtain ⟨t, ht⟩ := runOps_fifo sz rest (qpush sz v s) b n' hI tI' extra'
      (q ++ [v]) H' (by
        simp only [List.length_cons] at hU
        simp only [List.length_append, List.length_singleton]
        omega)
    refine ⟨t, ?_⟩
    show (runOps sz rest (qpush sz v s)).2.2 ++ t =
      q.map some ++ (v :: (runOps sz rest (qpush sz v s)).2.1).map some
    rw [List.map_cons]
    rw [ht]
    simp
  | .pop :: rest, s, b, n, hI, tI, extra, q, H, hU => by
    cases q with
    | nil =>
      have he := qpop_empty H
      obtain ⟨t, ht⟩ := runOps_fifo sz rest s b n hI tI extra [] H (by
        simp only [List.length_cons] at hU
        simpa using (by omega : rest.length < U))
      refine ⟨t, ?_⟩
      have hrw : runOps sz (QOp.pop :: rest) s =
          ((runOps sz rest s).1, (runOps sz rest s).2.1,
            (runOps sz rest s).2.2) := by
        show (let p := qpop sz s
          let r := runOps sz rest p.2
          (r.1, r.2.1,
            match p.1 with
            | none => r.2.2
            | some w => w :: r.2.2)) = _
        rw [he]
      rw [hrw]
      simpa using ht
    | cons v q' =>
      obtain ⟨hv, b', n', hI', H'⟩ := qpop_cons H
      have hp : qpop sz s = (some (some v), (qpop sz s).2) := by
        rw [← hv]
      obtain ⟨t, ht⟩ := runOps_fifo sz rest (qpop sz s).2 b' n' hI' tI extra
        q' H' (by
          simp only [List.length_cons] at hU
          omega)
      refine ⟨t, ?_⟩
      have hrw : runOps sz (QOp.pop :: rest) s =
          ((runOps sz rest (qpop sz s).2).1,
            (runOps sz rest (qpop sz s).2).2.1,
            some v :: (runOps sz rest (qpop sz s).2).2.2) := by
        show (let p := qpop sz s
          let r := runOps sz rest p.2
          (r.1, r.2.1,
            match p.1 with
            | none => r.2.2
            | some w => w :: r.2.2)) = _
        rw [hp]
      rw [hrw]
      show (some v :: (runOps sz rest (qpop sz s).2).2.2) ++ t = _
      rw [List.cons_append, ht]
      simp

/-- C3.  FIFO law: for every sequence of push/pop operations on a single
queue (in the order induced by the queue lock, with fewer than `2^64`
operations so the `usize` size counter cannot wrap, and a zeroed size
word as obtained from fresh break memory), the sequence of values
returned by successful pops is a prefix of the sequence of pushed
values, in push order — including across segment transitions. -/
theorem C3_fifo_law {α : Type} (sz : Nat) (hsz : 0 < sz)
    (ops : List (QOp α)) (hops : ops.length < U) :
    ∃ t, (runOps sz ops (qnew α sz 0)).2.2 ++ t =
      ((runOps sz ops (qnew α sz 0)).2.1).map some := by
  obtain ⟨t, ht⟩ := runOps_fifo sz ops (qnew α sz 0) 0 1 0 0 false []
    (qnew_inv α sz hsz) (by simpa using hops)
  exact ⟨t, by simpa using ht⟩

/-- Operation sequence for the C3 witness: forty pushes (crossing the
`INITIAL_CAPACITY = 32` boundary) followed by forty pops. -/
def c3Ops : List (QOp Nat) :=
  ((List.range 40).map QOp.push) ++ List.replicate 40 QOp.pop

/-- Witness for C3 with `sz = 4` on an 80-operation sequence crossing a
segment boundary in both directions. -/
theorem C3_fifo_law_witness :
    (0 < 4 ∧ c3Ops.length < U) ∧
    (∃ t, (runOps 4 c3Ops (qnew Nat 4 0)).2.2 ++ t =
      ((runOps 4 c3Ops (qnew Nat 4 0)).2.1).map some) :=
  ⟨⟨by decide, by decide⟩, C3_fifo_law 4 (by decide) c3Ops (by decide)⟩
